import Mathlib

/-!
Verification of the greedy time-blocking scheduler of the adaptive study
planner (`src/main.py`).

Timestamps are modelled as rational numbers of minutes since an arbitrary
midnight epoch (Python `datetime` arithmetic on minutes is exact, and the
scheduler only ever adds minute quantities, reads the hour of day, and
replaces the time-of-day by a whole hour).  `estimated_hours` is a real
(Python float) modelled as a rational, so session lengths are rationals.

The Python `while` loop is embedded with explicit fuel returning `Option`:
`none` means the fuel ran out, `some` is the value the loop computes.
Termination (the existence of sufficient fuel) is proved separately.
-/

namespace StudyPlanner

set_option maxRecDepth 100000

/-- A task, mirroring the dictionaries consumed by `generate_schedule`:
`t.get("subject", "")`, `t.get("estimated_hours", 1.0)` and
`t.get("priority", 3)` are modelled with `Option` fields. -/
structure Task where
  title : String
  subject : Option String
  due : ℚ
  estimated_hours : Option ℚ
  priority : Option Int
deriving DecidableEq, Repr

/-- The profile dictionary; `profile.get("daily_start_hour", 8)` etc. are
modelled with `Option` fields. -/
structure Profile where
  daily_start_hour : Option Int
  daily_end_hour : Option Int
  max_session_minutes : Option Int
deriving DecidableEq, Repr

/-- A study block as built by `generate_schedule` (the Python dict with
keys title/subject/start/end/minutes); `end` is a Lean keyword, hence
`end_`. -/
structure StudyBlock where
  title : String
  subject : String
  start : ℚ
  end_ : ℚ
  minutes : ℚ
deriving DecidableEq, Repr

/-- `profile.get("daily_start_hour", 8)`. -/
def dsOf (p : Profile) : Int := p.daily_start_hour.getD 8

/-- `profile.get("daily_end_hour", 22)`. -/
def deOf (p : Profile) : Int := p.daily_end_hour.getD 22

/-- `profile.get("max_session_minutes", 50)`. -/
def msOf (p : Profile) : Int := p.max_session_minutes.getD 50

/-- `task.get("subject", "")`. -/
def subjOf (t : Task) : String := t.subject.getD ""

/-- `float(task.get("estimated_hours", 1.0)) * 60.0`. -/
def estMinutes (t : Task) : ℚ := t.estimated_hours.getD 1 * 60

/-- `task.get("priority", 3)`. -/
def prioOf (t : Task) : Int := t.priority.getD 3

/-- `⌊q / n⌋` computed without rational division (rational division is
not kernel-reducible, so day/hour extraction is phrased through integer
floor division; `floorDiv_eq_floor` below shows it is the same number). -/
def floorDiv (q : ℚ) (n : Nat) : Int := Int.fdiv q.num (q.den * n)

/-- Index of the calendar day containing minute-timestamp `t`. -/
def dayIndex (t : ℚ) : Int := floorDiv t 1440

/-- Midnight of the day containing `t` (Python
`t.replace(hour=0, minute=0, second=0, microsecond=0)`). -/
def dayStart (t : ℚ) : ℚ := 1440 * (dayIndex t : ℚ)

/-- Python `t.hour`: the hour-of-day of timestamp `t`. -/
def hourOf (t : ℚ) : Int := floorDiv (t - dayStart t) 60

/-- The window snap at the top of the scheduling loop:
if `current.hour < daily_start` jump to `daily_start:00` of the same day,
else if `current.hour >= daily_end` jump to `daily_start:00` of the next
day, else leave `current` unchanged.  Python's `replace(hour=ds)` only
accepts `0 ≤ ds ≤ 23` (it raises `ValueError` otherwise), so this total
function models the source faithfully only for `daily_start_hour` in
0–23; every theorem below keeps `ds` in that range, via `validProfile`
or a concrete in-range value. -/
def snapCursor (ds de : Int) (t : ℚ) : ℚ :=
  if hourOf t < ds then dayStart t + 60 * ds
  else if de ≤ hourOf t then dayStart t + 1440 + 60 * ds
  else t

/-- The block dict construction in the loop body. -/
def mkBlock (title subject : String) (s e m : ℚ) : StudyBlock :=
  ⟨title, subject, s, e, m⟩

/-- The inner `while remaining > 0 and current < due` loop of
`generate_schedule`, for one task, with explicit fuel.  Returns the blocks
emitted for this task together with the final cursor, or `none` when the
fuel is exhausted. -/
def scheduleLoop (ds de maxS : Int) (due : ℚ) (title subject : String) :
    Nat → ℚ → ℚ → Option (List StudyBlock × ℚ)
  | 0, _, _ => none
  | Nat.succ n, remaining, current =>
    if 0 < remaining ∧ current < due then
      if due < snapCursor ds de current + min (maxS : ℚ) remaining then
        some ([], snapCursor ds de current)
      else
        match scheduleLoop ds de maxS due title subject n
            (remaining - min (maxS : ℚ) remaining)
            (snapCursor ds de current + min (maxS : ℚ) remaining + 10) with
        | none => none
        | some (blocks, c2) =>
          some (mkBlock title subject (snapCursor ds de current)
              (snapCursor ds de current + min (maxS : ℚ) remaining)
              (min (maxS : ℚ) remaining) :: blocks, c2)
    else some ([], current)

/-- The `for task in sorted_tasks` loop: runs `scheduleLoop` for each task
in order, threading the shared cursor, concatenating the emitted blocks
(the Python code appends to one shared `plan` list). -/
def schedTasks (ds de maxS : Int) (fuel : Nat) :
    List Task → ℚ → Option (List StudyBlock × ℚ)
  | [], current => some ([], current)
  | t :: ts, current =>
    match scheduleLoop ds de maxS t.due t.title (subjOf t) fuel
        (estMinutes t) current with
    | none => none
    | some (blocks, c2) =>
      match schedTasks ds de maxS fuel ts c2 with
      | none => none
      | some (rest, c3) => some (blocks ++ rest, c3)

/-- The sort key `(datetime.fromisoformat(t["due"]), -t.get("priority", 3))`
compared lexicographically: due ascending, priority descending. -/
def taskLe (t u : Task) : Prop :=
  t.due < u.due ∨ (t.due = u.due ∧ prioOf u ≤ prioOf t)

instance : DecidableRel taskLe := fun t u =>
  inferInstanceAs (Decidable (t.due < u.due ∨ (t.due = u.due ∧ prioOf u ≤ prioOf t)))

/-- Python `sorted(tasks, key=lambda t: (due, -priority))`; `sorted` is a
stable sort, and `List.insertionSort` with a total preorder is stable, so
the two agree. -/
def sortTasks (tasks : List Task) : List Task := List.insertionSort taskLe tasks

/-- `generate_schedule(tasks, profile)` with the ambient `datetime.now()`
passed explicitly as `now` and explicit fuel for the inner loops. -/
def generate_schedule (fuel : Nat) (tasks : List Task) (p : Profile)
    (now : ℚ) : Option (List StudyBlock) :=
  match schedTasks (dsOf p) (deOf p) (msOf p) fuel (sortTasks tasks) now with
  | none => none
  | some (plan, _) => some plan

/-- The profile-validity condition stated by the specification:
daily hours are in 0–23 with `daily_start_hour < daily_end_hour`, and
`max_session_minutes` is a positive integer. -/
def validProfile (p : Profile) : Prop :=
  0 ≤ dsOf p ∧ dsOf p < deOf p ∧ deOf p ≤ 23 ∧ 1 ≤ msOf p

instance (p : Profile) : Decidable (validProfile p) :=
  inferInstanceAs (Decidable (_ ∧ _ ∧ _ ∧ _))

/-- Total minutes of a list of blocks. -/
def sumMinutes (blocks : List StudyBlock) : ℚ :=
  (blocks.map StudyBlock.minutes).sum

/-- `get_upcoming_blocks`: filters the saved plan to blocks whose `start`
lies in `[now, now + hours_ahead]`, appending in input order (the Python
`for`/`append` loop is a left fold over the plan). -/
def get_upcoming_blocks (plans : List StudyBlock) (now : ℚ)
    (hours_ahead : Int := 24) : List StudyBlock :=
  plans.foldl
    (fun acc b =>
      if now ≤ b.start ∧ b.start ≤ now + 60 * (hours_ahead : ℚ) then
        acc ++ [b]
      else acc)
    []

/-! ### Arithmetic facts about day/hour extraction -/

theorem floorDiv_eq_floor (q : ℚ) (n : ℕ) (hn : 0 < n) :
    floorDiv q n = ⌊q / (n : ℚ)⌋ := by
  have hden : ((q.den : ℚ)) ≠ 0 := by
    exact_mod_cast q.den_nz
  have hn0 : ((n : ℚ)) ≠ 0 := Nat.cast_ne_zero.mpr hn.ne'
  have hdiv : q / (n : ℚ) = (q.num : ℚ) / ((q.den * n : ℕ) : ℚ) := by
    conv_lhs => rw [← Rat.num_div_den q]
    push_cast
    rw [div_div]
  rw [hdiv, Rat.floor_intCast_div_natCast]
  unfold floorDiv
  exact Int.fdiv_eq_ediv _ (Int.natCast_nonneg _)

theorem dayIndex_eq (t : ℚ) : dayIndex t = ⌊t / 1440⌋ :=
  floorDiv_eq_floor t 1440 (by norm_num)

theorem hourOf_eq (t : ℚ) : hourOf t = ⌊(t - dayStart t) / 60⌋ :=
  floorDiv_eq_floor _ 60 (by norm_num)

theorem dayStart_le (t : ℚ) : dayStart t ≤ t := by
  have h := Int.floor_le (t / 1440)
  have ht : t / 1440 * 1440 = t := div_mul_cancel₀ t (by norm_num)
  have h2 := mul_le_mul_of_nonneg_right h (by norm_num : (0:ℚ) ≤ 1440)
  rw [ht] at h2
  rw [dayStart, dayIndex_eq]
  linarith

theorem lt_dayStart_add (t : ℚ) : t < dayStart t + 1440 := by
  have h := Int.lt_floor_add_one (t / 1440)
  have ht : t / 1440 * 1440 = t := div_mul_cancel₀ t (by norm_num)
  have h2 := mul_lt_mul_of_pos_right h (by norm_num : (0:ℚ) < 1440)
  rw [ht] at h2
  rw [dayStart, dayIndex_eq]
  linarith

theorem hourOf_lt_iff {t : ℚ} {h : Int} :
    hourOf t < h ↔ t - dayStart t < 60 * (h : ℚ) := by
  rw [hourOf_eq, Int.floor_lt, div_lt_iff₀ (by norm_num : (0:ℚ) < 60)]
  constructor <;> intro hx <;> linarith

theorem le_hourOf_iff {t : ℚ} {h : Int} :
    h ≤ hourOf t ↔ 60 * (h : ℚ) ≤ t - dayStart t := by
  rw [hourOf_eq, Int.le_floor, le_div_iff₀ (by norm_num : (0:ℚ) < 60)]
  constructor <;> intro hx <;> linarith

theorem dayIndex_add_int_mul (d : Int) (r : ℚ) :
    dayIndex (1440 * (d : ℚ) + r) = d + dayIndex r := by
  rw [dayIndex_eq, dayIndex_eq]
  have h : (1440 * (d : ℚ) + r) / 1440 = (d : ℚ) + r / 1440 := by ring
  rw [h, Int.floor_int_add]

theorem hourOf_day_hour (d h : Int) (h0 : 0 ≤ h) (h23 : h < 24) :
    hourOf (1440 * (d : ℚ) + 60 * (h : ℚ)) = h := by
  have hz : dayIndex (60 * (h : ℚ)) = 0 := by
    rw [dayIndex_eq, Int.floor_eq_zero_iff, Set.mem_Ico]
    constructor
    · apply div_nonneg _ (by norm_num)
      have : (0:ℚ) ≤ (h : ℚ) := by exact_mod_cast h0
      linarith
    · rw [div_lt_one (by norm_num : (0:ℚ) < 1440)]
      have : (h : ℚ) < 24 := by exact_mod_cast h23
      linarith
  have hd : dayIndex (1440 * (d : ℚ) + 60 * (h : ℚ)) = d := by
    rw [dayIndex_add_int_mul, hz, add_zero]
  rw [hourOf, dayStart, hd]
  have h60 : (1440 * (d : ℚ) + 60 * (h : ℚ)) - 1440 * (d : ℚ) = 60 * (h : ℚ) := by
    ring
  rw [floorDiv_eq_floor _ 60 (by norm_num), h60]
  have h6 : 60 * (h : ℚ) / ((60 : ℕ) : ℚ) = (h : ℚ) := by
    push_cast
    field_simp
  rw [h6, Int.floor_intCast]

theorem le_snapCursor {ds de : Int} (hds : 0 ≤ ds) (t : ℚ) :
    t ≤ snapCursor ds de t := by
  unfold snapCursor
  have hds' : (0:ℚ) ≤ 60 * (ds : ℚ) := by
    have : (0:ℚ) ≤ (ds : ℚ) := by exact_mod_cast hds
    linarith
  split
  · next hlt =>
    have := hourOf_lt_iff.mp hlt
    linarith
  · split
    · next =>
      have h1 := lt_dayStart_add t
      linarith
    · exact le_rfl

theorem hourOf_snapCursor {ds de : Int} (hds : 0 ≤ ds) (hlt : ds < de)
    (hde : de ≤ 23) (t : ℚ) :
    ds ≤ hourOf (snapCursor ds de t) ∧ hourOf (snapCursor ds de t) < de := by
  have hds23 : ds < 24 := by omega
  unfold snapCursor
  split
  · next =>
    have h1 : dayStart t + 60 * (ds : ℚ) =
        1440 * ((dayIndex t : Int) : ℚ) + 60 * (ds : ℚ) := by
      rw [dayStart]
    rw [h1, hourOf_day_hour (dayIndex t) ds hds hds23]
    exact ⟨le_rfl, hlt⟩
  · split
    · next =>
      have h1 : dayStart t + 1440 + 60 * (ds : ℚ) =
          1440 * ((dayIndex t + 1 : Int) : ℚ) + 60 * (ds : ℚ) := by
        rw [dayStart]
        push_cast
        ring
      rw [h1, hourOf_day_hour (dayIndex t + 1) ds hds hds23]
      exact ⟨le_rfl, hlt⟩
    · next h1 h2 =>
      omega

/-! ### The loop invariant -/

/-- Invariant satisfied by every block one loop run emits: its start is at
or after the entry cursor `lo`, its end plus the rest gap is at or before
the exit cursor `hi`, it respects the deadline, its duration is positive,
consistent and bounded by the session cap, its start lies in the daily
window, and it carries the task's title and subject. -/
def BlockInv (ds de maxS : Int) (due lo hi : ℚ) (title subject : String)
    (b : StudyBlock) : Prop :=
  lo ≤ b.start ∧ b.end_ + 10 ≤ hi ∧ b.end_ ≤ due ∧
  b.end_ = b.start + b.minutes ∧ 0 < b.minutes ∧ b.minutes ≤ (maxS : ℚ) ∧
  ds ≤ hourOf b.start ∧ hourOf b.start < de ∧
  b.title = title ∧ b.subject = subject

theorem BlockInv.mono {ds de maxS : Int} {due lo hi lo' hi' : ℚ}
    {title subject : String} {b : StudyBlock}
    (h : BlockInv ds de maxS due lo hi title subject b)
    (hlo : lo' ≤ lo) (hhi : hi ≤ hi') :
    BlockInv ds de maxS due lo' hi' title subject b := by
  obtain ⟨h1, h2, h3⟩ := h
  exact ⟨le_trans hlo h1, le_trans h2 hhi, h3⟩

theorem mem_of_head? {α : Type _} {l : List α} {y : α} (h : y ∈ l.head?) :
    y ∈ l := by
  cases l <;> simp_all

theorem sumMinutes_nil : sumMinutes [] = 0 := rfl

theorem sumMinutes_cons (b : StudyBlock) (l : List StudyBlock) :
    sumMinutes (b :: l) = b.minutes + sumMinutes l := by
  simp [sumMinutes]

/-- Master invariant of the inner `while` loop: whatever fuel suffices,
the cursor never moves backwards, every emitted block satisfies
`BlockInv`, consecutive blocks are separated by the 10-minute gap, the
emitted minutes never exceed the remaining budget, and on exit either the
budget is exhausted, or the cursor is at/past `due`, or the next candidate
session would end past `due`. -/
theorem scheduleLoop_inv {ds de maxS : Int} {due : ℚ} {title subject : String}
    (hds : 0 ≤ ds) (hlt : ds < de) (hde : de ≤ 23) (hms : 1 ≤ maxS) :
    ∀ (n : Nat) (rem cur : ℚ) (blocks : List StudyBlock) (c2 : ℚ),
      scheduleLoop ds de maxS due title subject n rem cur = some (blocks, c2) →
      cur ≤ c2 ∧
      (∀ b ∈ blocks, BlockInv ds de maxS due cur c2 title subject b) ∧
      List.Chain' (fun a b => a.end_ + 10 ≤ b.start) blocks ∧
      sumMinutes blocks ≤ max rem 0 ∧
      (rem - sumMinutes blocks ≤ 0 ∨ due ≤ c2 ∨
        due < c2 + min (maxS : ℚ) (rem - sumMinutes blocks)) := by
  intro n
  induction n with
  | zero =>
    intro rem cur blocks c2 h
    simp [scheduleLoop] at h
  | succ n ih =>
    intro rem cur blocks c2 h
    rw [scheduleLoop] at h
    by_cases hg : 0 < rem ∧ cur < due
    · rw [if_pos hg] at h
      have hcur_c1 : cur ≤ snapCursor ds de cur := le_snapCursor hds cur
      have hone : (1:ℚ) ≤ (maxS : ℚ) := by exact_mod_cast hms
      have hses_pos : 0 < min (maxS : ℚ) rem := lt_min (by linarith) hg.1
      have hses_le : min (maxS : ℚ) rem ≤ (maxS : ℚ) := min_le_left _ _
      have hses_rem : min (maxS : ℚ) rem ≤ rem := min_le_right _ _
      by_cases hbrk : due < snapCursor ds de cur + min (maxS : ℚ) rem
      · rw [if_pos hbrk] at h
        simp only [Option.some.injEq, Prod.mk.injEq] at h
        obtain ⟨hb, hc⟩ := h
        subst hb
        subst hc
        refine ⟨hcur_c1, by simp, List.chain'_nil, ?_, ?_⟩
        · rw [sumMinutes_nil]
          exact le_max_right _ _
        · right; right
          rw [sumMinutes_nil, sub_zero]
          exact hbrk
      · rw [if_neg hbrk] at h
        cases hrec : scheduleLoop ds de maxS due title subject n
            (rem - min (maxS : ℚ) rem)
            (snapCursor ds de cur + min (maxS : ℚ) rem + 10) with
        | none => rw [hrec] at h; cases h
        | some pr =>
          obtain ⟨bs, c2'⟩ := pr
          rw [hrec] at h
          simp only [Option.some.injEq, Prod.mk.injEq] at h
          obtain ⟨hb, hc⟩ := h
          subst hb
          subst hc
          obtain ⟨ih1, ih2, ih3, ih4, ih5⟩ := ih _ _ _ _ hrec
          have hend_due : snapCursor ds de cur + min (maxS : ℚ) rem ≤ due :=
            not_lt.mp hbrk
          have hwin := hourOf_snapCursor hds hlt hde cur
          have hnew : BlockInv ds de maxS due cur c2'
              title subject
              (mkBlock title subject (snapCursor ds de cur)
                (snapCursor ds de cur + min (maxS : ℚ) rem)
                (min (maxS : ℚ) rem)) := by
            refine ⟨hcur_c1, by simpa [mkBlock] using ih1, ?_, ?_, ?_, ?_, ?_, ?_, rfl, rfl⟩
            · simpa [mkBlock] using hend_due
            · simp [mkBlock]
            · simp only [mkBlock]
              exact hses_pos
            · simp only [mkBlock]
              exact hses_le
            · simpa [mkBlock] using hwin.1
            · simpa [mkBlock] using hwin.2
          refine ⟨?_, ?_, ?_, ?_, ?_⟩
          · linarith
          · intro b hbmem
            rcases List.mem_cons.mp hbmem with rfl | hbs
            · exact hnew
            · exact (ih2 b hbs).mono (by linarith) le_rfl
          · rw [List.chain'_cons']
            refine ⟨?_, ih3⟩
            intro y hy
            have hymem : y ∈ bs := mem_of_head? hy
            have := (ih2 y hymem).1
            simpa [mkBlock] using this
          · rw [sumMinutes_cons]
            have hmax1 : max (rem - min (maxS : ℚ) rem) 0 = rem - min (maxS : ℚ) rem :=
              max_eq_left (by linarith)
            have hmax2 : max rem 0 = rem := max_eq_left (le_of_lt hg.1)
            rw [hmax1] at ih4
            rw [hmax2]
            simp only [mkBlock]
            linarith
          · rw [sumMinutes_cons]
            simp only [mkBlock]
            have he : rem - (min (maxS : ℚ) rem + sumMinutes bs) =
                rem - min (maxS : ℚ) rem - sumMinutes bs := by ring
            rw [he]
            exact ih5
    · rw [if_neg hg] at h
      simp only [Option.some.injEq, Prod.mk.injEq] at h
      obtain ⟨hb, hc⟩ := h
      subst hb
      subst hc
      push_neg at hg
      refine ⟨le_rfl, by simp, List.chain'_nil, ?_, ?_⟩
      · rw [sumMinutes_nil]
        exact le_max_right _ _
      · rw [sumMinutes_nil, sub_zero]
        by_cases h0 : 0 < rem
        · right; left
          exact hg h0
        · left
          linarith [not_lt.mp h0]

theorem mem_of_getLast? {α : Type _} {l : List α} {y : α}
    (h : y ∈ l.getLast?) : y ∈ l := by
  obtain ⟨hne, rfl⟩ := List.mem_getLast?_eq_getLast h
  exact List.getLast_mem hne

/-- Master invariant of the whole run: the shared cursor never moves
backwards across tasks, every block in the plan satisfies `BlockInv` for
one of the processed tasks, and the 10-minute-gap chain spans the whole
plan, across task boundaries. -/
theorem schedTasks_inv {ds de maxS : Int}
    (hds : 0 ≤ ds) (hlt : ds < de) (hde : de ≤ 23) (hms : 1 ≤ maxS) :
    ∀ (ts : List Task) (fuel : Nat) (cur : ℚ) (plan : List StudyBlock) (c2 : ℚ),
      schedTasks ds de maxS fuel ts cur = some (plan, c2) →
      cur ≤ c2 ∧
      (∀ b ∈ plan, ∃ t ∈ ts,
        BlockInv ds de maxS t.due cur c2 t.title (subjOf t) b) ∧
      List.Chain' (fun a b => a.end_ + 10 ≤ b.start) plan := by
  intro ts
  induction ts with
  | nil =>
    intro fuel cur plan c2 h
    simp only [schedTasks, Option.some.injEq, Prod.mk.injEq] at h
    obtain ⟨hb, hc⟩ := h
    subst hb
    subst hc
    exact ⟨le_rfl, by simp, List.chain'_nil⟩
  | cons t ts iht =>
    intro fuel cur plan c2 h
    rw [schedTasks] at h
    cases hloop : scheduleLoop ds de maxS t.due t.title (subjOf t) fuel
        (estMinutes t) cur with
    | none => rw [hloop] at h; cases h
    | some pr =>
      obtain ⟨blocks, cm⟩ := pr
      simp only [hloop] at h
      cases hrest : schedTasks ds de maxS fuel ts cm with
      | none => simp only [hrest] at h; cases h
      | some pr2 =>
        obtain ⟨rest, c3⟩ := pr2
        simp only [hrest, Option.some.injEq, Prod.mk.injEq] at h
        obtain ⟨rfl, rfl⟩ := h
        obtain ⟨l1, l2, l3, _, _⟩ :=
          scheduleLoop_inv hds hlt hde hms fuel _ _ _ _ hloop
        obtain ⟨r1, r2, r3⟩ := iht _ _ _ _ hrest
        refine ⟨le_trans l1 r1, ?_, ?_⟩
        · intro b hbmem
          rcases List.mem_append.mp hbmem with hb1 | hb2
          · exact ⟨t, List.mem_cons_self _ _, (l2 b hb1).mono le_rfl r1⟩
          · obtain ⟨u, hu, hinv⟩ := r2 b hb2
            exact ⟨u, List.mem_cons_of_mem _ hu, hinv.mono l1 le_rfl⟩
        · apply l3.append r3
          intro x hx y hy
          have hxmem : x ∈ blocks := mem_of_getLast? hx
          have hymem : y ∈ rest := mem_of_head? hy
          have h1 := (l2 x hxmem).2.1
          obtain ⟨u, hu, hinv⟩ := r2 y hymem
          exact le_trans h1 hinv.1

/-! ### Termination: enough fuel makes the loops succeed, stably -/

theorem scheduleLoop_mono {ds de maxS : Int} {due : ℚ} {title subject : String} :
    ∀ (n : Nat) (rem cur : ℚ) (r : List StudyBlock × ℚ),
      scheduleLoop ds de maxS due title subject n rem cur = some r →
      scheduleLoop ds de maxS due title subject (n + 1) rem cur = some r := by
  intro n
  induction n with
  | zero =>
    intro rem cur r h
    simp [scheduleLoop] at h
  | succ n ih =>
    intro rem cur r h
    rw [scheduleLoop] at h
    rw [scheduleLoop]
    by_cases hg : 0 < rem ∧ cur < due
    · rw [if_pos hg] at h ⊢
      by_cases hbrk : due < snapCursor ds de cur + min (maxS : ℚ) rem
      · rw [if_pos hbrk] at h ⊢
        exact h
      · rw [if_neg hbrk] at h ⊢
        cases hrec : scheduleLoop ds de maxS due title subject n
            (rem - min (maxS : ℚ) rem)
            (snapCursor ds de cur + min (maxS : ℚ) rem + 10) with
        | none => rw [hrec] at h; cases h
        | some pr =>
          simp only [hrec] at h
          simp only [ih _ _ _ hrec]
          exact h
    · rw [if_neg hg] at h ⊢
      exact h

theorem scheduleLoop_mono_of_le {ds de maxS : Int} {due : ℚ}
    {title subject : String} {n m : Nat} (hnm : n ≤ m) {rem cur : ℚ}
    {r : List StudyBlock × ℚ}
    (h : scheduleLoop ds de maxS due title subject n rem cur = some r) :
    scheduleLoop ds de maxS due title subject m rem cur = some r := by
  induction hnm with
  | refl => exact h
  | step _ ih => exact scheduleLoop_mono _ _ _ _ ih

/-- Each non-exiting loop iteration advances the cursor by at least the
10-minute rest gap, so fuel one more than the minute distance to the
deadline always suffices. -/
theorem scheduleLoop_total {ds de maxS : Int} {due : ℚ}
    {title subject : String} (hds : 0 ≤ ds) (hms : 0 ≤ maxS) :
    ∀ (k : Nat) (rem cur : ℚ), due - cur ≤ (k : ℚ) →
      ∃ r, scheduleLoop ds de maxS due title subject (k + 1) rem cur = some r := by
  intro k
  induction k with
  | zero =>
    intro rem cur hk
    rw [scheduleLoop]
    have hng : ¬ (0 < rem ∧ cur < due) := by
      rintro ⟨_, hcd⟩
      push_cast at hk
      linarith
    rw [if_neg hng]
    exact ⟨_, rfl⟩
  | succ k ih =>
    intro rem cur hk
    rw [scheduleLoop]
    by_cases hg : 0 < rem ∧ cur < due
    · rw [if_pos hg]
      by_cases hbrk : due < snapCursor ds de cur + min (maxS : ℚ) rem
      · rw [if_pos hbrk]
        exact ⟨_, rfl⟩
      · rw [if_neg hbrk]
        have hses : 0 ≤ min (maxS : ℚ) rem :=
          le_min (by exact_mod_cast hms) (le_of_lt hg.1)
        have hcur : cur ≤ snapCursor ds de cur := le_snapCursor hds cur
        have hmeas : due - (snapCursor ds de cur + min (maxS : ℚ) rem + 10) ≤
            (k : ℚ) := by
          push_cast at hk
          linarith
        obtain ⟨r, hr⟩ := ih _ _ hmeas
        rw [hr]
        exact ⟨_, rfl⟩
    · rw [if_neg hg]
      exact ⟨_, rfl⟩

theorem scheduleLoop_exists_fuel (ds de maxS : Int) (due : ℚ)
    (title subject : String) (hds : 0 ≤ ds) (hms : 0 ≤ maxS)
    (rem cur : ℚ) :
    ∃ (n : Nat) (r : List StudyBlock × ℚ), ∀ m, n ≤ m →
      scheduleLoop ds de maxS due title subject m rem cur = some r := by
  obtain ⟨k, hk⟩ := exists_nat_ge (due - cur)
  obtain ⟨r, hr⟩ := scheduleLoop_total hds hms k rem cur hk
  exact ⟨k + 1, r, fun m hm => scheduleLoop_mono_of_le hm hr⟩

theorem schedTasks_total {ds de maxS : Int} (hds : 0 ≤ ds) (hms : 0 ≤ maxS) :
    ∀ (ts : List Task) (cur : ℚ),
      ∃ (n : Nat) (plan : List StudyBlock) (c2 : ℚ), ∀ m, n ≤ m →
        schedTasks ds de maxS m ts cur = some (plan, c2) := by
  intro ts
  induction ts with
  | nil =>
    intro cur
    exact ⟨0, [], cur, fun m _ => by simp [schedTasks]⟩
  | cons t ts iht =>
    intro cur
    obtain ⟨n1, r, hr⟩ :=
      scheduleLoop_exists_fuel ds de maxS t.due t.title (subjOf t)
        hds hms (estMinutes t) cur
    obtain ⟨blocks, cm⟩ := r
    obtain ⟨n2, plan, c2, hrest⟩ := iht cm
    refine ⟨max n1 n2, blocks ++ plan, c2, ?_⟩
    intro m hm
    rw [schedTasks]
    rw [hr m (le_trans (le_max_left _ _) hm)]
    simp only [hrest m (le_trans (le_max_right _ _) hm)]

/-! ### The task ordering -/

instance : IsTotal Task taskLe := by
  constructor
  intro t u
  rcases lt_trichotomy t.due u.due with h | h | h
  · exact Or.inl (Or.inl h)
  · rcases le_total (prioOf u) (prioOf t) with hp | hp
    · exact Or.inl (Or.inr ⟨h, hp⟩)
    · exact Or.inr (Or.inr ⟨h.symm, hp⟩)
  · exact Or.inr (Or.inl h)

instance : IsTrans Task taskLe := by
  constructor
  intro a b c hab hbc
  rcases hab with h1 | ⟨e1, p1⟩
  · rcases hbc with h2 | ⟨e2, p2⟩
    · exact Or.inl (h1.trans h2)
    · exact Or.inl (e2 ▸ h1)
  · rcases hbc with h2 | ⟨e2, p2⟩
    · exact Or.inl (e1 ▸ h2)
    · exact Or.inr ⟨e1.trans e2, p2.trans p1⟩

theorem sortTasks_sorted (tasks : List Task) :
    List.Sorted taskLe (sortTasks tasks) :=
  List.sorted_insertionSort taskLe tasks

theorem sortTasks_perm (tasks : List Task) :
    List.Perm (sortTasks tasks) tasks :=
  List.perm_insertionSort taskLe tasks

/-! ### Helpers for the claim theorems -/

theorem generate_schedule_some {fuel : Nat} {tasks : List Task} {p : Profile}
    {now : ℚ} {plan : List StudyBlock}
    (h : generate_schedule fuel tasks p now = some plan) :
    ∃ c2, schedTasks (dsOf p) (deOf p) (msOf p) fuel (sortTasks tasks) now =
      some (plan, c2) := by
  unfold generate_schedule at h
  cases hs : schedTasks (dsOf p) (deOf p) (msOf p) fuel (sortTasks tasks) now with
  | none => rw [hs] at h; cases h
  | some pr =>
    obtain ⟨pl, c2⟩ := pr
    simp only [hs, Option.some.injEq] at h
    subst h
    exact ⟨c2, rfl⟩

theorem chain_start_of_gap :
    ∀ l : List StudyBlock,
      (∀ b ∈ l, b.start ≤ b.end_ + 10) →
      List.Chain' (fun a b => a.end_ + 10 ≤ b.start) l →
      List.Chain' (fun a b => a.start ≤ b.start) l := by
  intro l
  induction l with
  | nil => intro _ _; exact List.chain'_nil
  | cons a l ih =>
    intro hm hc
    rw [List.chain'_cons'] at hc ⊢
    obtain ⟨h1, h2⟩ := hc
    refine ⟨?_, ih (fun b hb => hm b (List.mem_cons_of_mem _ hb)) h2⟩
    intro y hy
    have h3 := h1 y hy
    have ha := hm a (List.mem_cons_self _ _)
    linarith

theorem upcoming_foldl_aux (now hq : ℚ) :
    ∀ l acc : List StudyBlock,
      l.foldl (fun acc b =>
        if now ≤ b.start ∧ b.start ≤ hq then acc ++ [b] else acc) acc =
      acc ++ l.filter (fun b => decide (now ≤ b.start ∧ b.start ≤ hq)) := by
  intro l
  induction l with
  | nil => intro acc; simp
  | cons b l ih =>
    intro acc
    rw [List.foldl_cons]
    by_cases hb : now ≤ b.start ∧ b.start ≤ hq
    · rw [if_pos hb, ih, List.filter_cons]
      simp [hb]
    · rw [if_neg hb, ih, List.filter_cons]
      simp [hb]

theorem get_upcoming_blocks_eq_filter (plans : List StudyBlock) (now : ℚ)
    (h : Int) :
    get_upcoming_blocks plans now h =
      plans.filter
        (fun b => decide (now ≤ b.start ∧ b.start ≤ now + 60 * (h : ℚ))) := by
  unfold get_upcoming_blocks
  simpa using upcoming_foldl_aux now (now + 60 * (h : ℚ)) plans []

/-! ### Concrete inputs used by witnesses and counterexamples -/

/-- The empty profile: all defaults apply (8, 22, 50). -/
def pDefault : Profile := ⟨none, none, none⟩

def tX : Task := ⟨"X", none, 10000, none, none⟩

def bX1 : StudyBlock := ⟨"X", "", 1290, 1340, 50⟩

def bX2 : StudyBlock := ⟨"X", "", 1920, 1930, 10⟩

def tA : Task := ⟨"A", none, 1440, some (mkRat 1 2), some 5⟩

def tB : Task := ⟨"B", none, 1440, some (mkRat 1 2), some 2⟩

def bA : StudyBlock := ⟨"A", "", 540, 570, 30⟩

def bB : StudyBlock := ⟨"B", "", 580, 610, 30⟩

def tF : Task := ⟨"F", none, 10000, some (mkRat 1 8), none⟩

def bF : StudyBlock := ⟨"F", "", 540, mkRat 1095 2, mkRat 15 2⟩

def pBad : Profile := ⟨some 10, some 5, some 50⟩

def tG : Task := ⟨"G", none, 2880, none, none⟩

def pBad2 : Profile := ⟨some 9, some 9, some 30⟩

def tH : Task := ⟨"H", none, 2880, none, none⟩

def bU1 : StudyBlock := ⟨"U1", "", 1980, 2030, 50⟩

def bU2 : StudyBlock := ⟨"U2", "", 2040, 2090, 50⟩

/-! ### Claim C1 -/

/-- C1 (counterexample): a block emitted by the scheduler can end strictly
inside the forbidden region: with the default profile and `now` at 21:30,
the first block ends at 22:20, whose hour-of-day (22) is not in `[8, 22)`
and which is not exactly the 22:00 boundary of its day.  This refutes the
claim that every block's end falls within the window except for ending
exactly at `daily_end_hour`. -/
theorem block_end_can_leave_window :
    generate_schedule 3 [tX] pDefault 1290 = some [bX1, bX2] ∧
    ¬ ((dsOf pDefault ≤ hourOf bX1.end_ ∧ hourOf bX1.end_ < deOf pDefault) ∨
        bX1.end_ = dayStart bX1.start + 60 * (deOf pDefault : ℚ)) := by
  constructor
  · with_unfolding_all decide
  · with_unfolding_all decide

/-- C1 (amended): every emitted block starts at an hour-of-day inside
`[daily_start_hour, daily_end_hour)`; the block's end is only bounded by
that day's `daily_end_hour` boundary extended by the block's own duration
(it may overrun the boundary by up to the session length). -/
theorem schedule_window_start_containment (p : Profile) (hp : validProfile p)
    (fuel : Nat) (tasks : List Task) (now : ℚ) (plan : List StudyBlock)
    (h : generate_schedule fuel tasks p now = some plan) :
    ∀ b ∈ plan,
      dsOf p ≤ hourOf b.start ∧ hourOf b.start < deOf p ∧
      b.end_ ≤ dayStart b.start + 60 * (deOf p : ℚ) + b.minutes := by
  obtain ⟨hds, hlt, hde, hms⟩ := hp
  obtain ⟨c2, hs⟩ := generate_schedule_some h
  obtain ⟨_, hmem, _⟩ := schedTasks_inv hds hlt hde hms _ _ _ _ _ hs
  intro b hb
  obtain ⟨t, _, hinv⟩ := hmem b hb
  obtain ⟨_, _, _, hEq, _, _, hh1, hh2, _, _⟩ := hinv
  refine ⟨hh1, hh2, ?_⟩
  have hlt2 : b.start - dayStart b.start < 60 * (deOf p : ℚ) :=
    hourOf_lt_iff.mp hh2
  rw [hEq]
  linarith

/-- C1 (witness): the amended claim, instantiated on a concrete run with
the default profile. -/
theorem schedule_window_start_containment_witness :
    validProfile pDefault ∧
    generate_schedule 3 [tX] pDefault 1290 = some [bX1, bX2] ∧
    (dsOf pDefault ≤ hourOf bX1.start ∧ hourOf bX1.start < deOf pDefault ∧
      bX1.end_ ≤ dayStart bX1.start + 60 * (deOf pDefault : ℚ) + bX1.minutes) :=
  ⟨by with_unfolding_all decide, by with_unfolding_all decide,
    schedule_window_start_containment pDefault (by with_unfolding_all decide)
      3 [tX] 1290 [bX1, bX2] (by with_unfolding_all decide)
      bX1 (List.mem_cons_self _ _)⟩

/-! ### Claim C2 -/

/-- C2: every emitted block ends at or before the due timestamp of the task
whose title/subject it carries; and whenever the next candidate session
would end past `due` (with the cursor already snapped into the window),
the loop stops for this task emitting nothing further — no partial,
shrunk-to-fit block.  The final cursor is the snapped cursor, and
`schedTasks` then proceeds with the next task. -/
theorem schedule_deadline_respect (p : Profile) (hp : validProfile p)
    (fuel : Nat) (tasks : List Task) (now : ℚ) (plan : List StudyBlock)
    (h : generate_schedule fuel tasks p now = some plan) :
    (∀ b ∈ plan, ∃ t ∈ tasks,
      b.title = t.title ∧ b.subject = subjOf t ∧ b.end_ ≤ t.due) ∧
    (∀ (ds de maxS : Int) (due : ℚ) (ttl sbj : String) (m : Nat)
        (rem cur : ℚ),
      0 < rem → cur < due →
      due < snapCursor ds de cur + min (maxS : ℚ) rem →
      scheduleLoop ds de maxS due ttl sbj (m + 1) rem cur =
        some ([], snapCursor ds de cur)) := by
  constructor
  · obtain ⟨hds, hlt, hde, hms⟩ := hp
    obtain ⟨c2, hs⟩ := generate_schedule_some h
    obtain ⟨_, hmem, _⟩ := schedTasks_inv hds hlt hde hms _ _ _ _ _ hs
    intro b hb
    obtain ⟨t, ht, hinv⟩ := hmem b hb
    obtain ⟨_, _, hdue, _, _, _, _, _, httl, hsbj⟩ := hinv
    exact ⟨t, (sortTasks_perm tasks).subset ht, httl, hsbj, hdue⟩
  · intro ds de maxS due ttl sbj m rem cur h1 h2 h3
    rw [scheduleLoop, if_pos ⟨h1, h2⟩, if_pos h3]

/-- C2 (witness): instantiated on a concrete run; the abandonment clause is
exercised at a state whose candidate session overruns the deadline. -/
theorem schedule_deadline_respect_witness :
    validProfile pDefault ∧
    generate_schedule 3 [tX] pDefault 1290 = some [bX1, bX2] ∧
    (∃ t ∈ [tX], bX1.title = t.title ∧ bX1.subject = subjOf t ∧
      bX1.end_ ≤ t.due) ∧
    scheduleLoop 8 22 50 600 "X" "" 3 60 570 = some ([], snapCursor 8 22 570) :=
  ⟨by with_unfolding_all decide, by with_unfolding_all decide,
    (schedule_deadline_respect pDefault (by with_unfolding_all decide)
        3 [tX] 1290 [bX1, bX2] (by with_unfolding_all decide)).1
      bX1 (List.mem_cons_self _ _),
    (schedule_deadline_respect pDefault (by with_unfolding_all decide)
        3 [tX] 1290 [bX1, bX2] (by with_unfolding_all decide)).2
      8 22 50 600 "X" "" 2 60 570 (by norm_num) (by norm_num)
      (by with_unfolding_all decide)⟩

/-! ### Claim C3 -/

/-- C3: tasks are processed in ascending `due` order with ties broken by
numerically larger priority first (the scheduler sorts with key
`(due, -priority)`, priority defaulting to 3); concretely, of two tasks
with the same due and priorities 5 and 2, the priority-5 task's block
appears first in the output and earlier in time, even when it was listed
second in the input. -/
theorem tasks_processed_in_due_priority_order :
    (∀ tasks : List Task, List.Sorted taskLe (sortTasks tasks)) ∧
    generate_schedule 3 [tB, tA] pDefault 540 = some [bA, bB] ∧
    bA.title = "A" ∧ bB.title = "B" ∧ bA.start < bB.start := by
  refine ⟨sortTasks_sorted, ?_, ?_, ?_, ?_⟩
  · with_unfolding_all decide
  · with_unfolding_all decide
  · with_unfolding_all decide
  · with_unfolding_all decide

/-! ### Claim C4 -/

/-- C4: any two consecutive blocks of the output — also across task
boundaries — are separated by the 10-minute rest gap
(`b[i].end + 10 ≤ b[i+1].start`), and the output is chronologically
ordered by start time. -/
theorem schedule_nonoverlap_and_chronological (p : Profile)
    (hp : validProfile p) (fuel : Nat) (tasks : List Task) (now : ℚ)
    (plan : List StudyBlock)
    (h : generate_schedule fuel tasks p now = some plan) :
    List.Chain' (fun a b => a.end_ + 10 ≤ b.start) plan ∧
    List.Chain' (fun a b => a.start ≤ b.start) plan := by
  obtain ⟨hds, hlt, hde, hms⟩ := hp
  obtain ⟨c2, hs⟩ := generate_schedule_some h
  obtain ⟨_, hmem, hchain⟩ := schedTasks_inv hds hlt hde hms _ _ _ _ _ hs
  refine ⟨hchain, chain_start_of_gap plan ?_ hchain⟩
  intro b hb
  obtain ⟨t, _, hinv⟩ := hmem b hb
  obtain ⟨_, _, _, hEq, hpos, _, _⟩ := hinv
  rw [hEq]
  linarith

/-- C4 (witness): instantiated on a concrete two-block run. -/
theorem schedule_nonoverlap_and_chronological_witness :
    validProfile pDefault ∧
    generate_schedule 3 [tX] pDefault 1290 = some [bX1, bX2] ∧
    (List.Chain' (fun a b => a.end_ + 10 ≤ b.start) [bX1, bX2] ∧
      List.Chain' (fun a b => a.start ≤ b.start) [bX1, bX2]) :=
  ⟨by with_unfolding_all decide, by with_unfolding_all decide,
    schedule_nonoverlap_and_chronological pDefault
      (by with_unfolding_all decide) 3 [tX] 1290 [bX1, bX2]
      (by with_unfolding_all decide)⟩

/-! ### Claim C5 -/

/-- C5: for a task scheduled by the inner loop with the budget
`estimated_hours * 60` (default 1.0 hour), the total emitted minutes never
exceed the budget, and a strict shortfall only happens when the remainder
could not be placed before `due`: on exit the cursor is at/past `due`, or
the next candidate session from the final cursor would end past `due`. -/
theorem per_task_minutes_conservation (p : Profile) (hp : validProfile p)
    (t : Task) (he : 0 ≤ estMinutes t) (fuel : Nat) (cur : ℚ)
    (blocks : List StudyBlock) (c2 : ℚ)
    (h : scheduleLoop (dsOf p) (deOf p) (msOf p) t.due t.title (subjOf t)
        fuel (estMinutes t) cur = some (blocks, c2)) :
    sumMinutes blocks ≤ estMinutes t ∧
    (sumMinutes blocks < estMinutes t →
      t.due ≤ c2 ∨
      t.due < c2 + min ((msOf p : Int) : ℚ) (estMinutes t - sumMinutes blocks)) := by
  obtain ⟨hds, hlt, hde, hms⟩ := hp
  obtain ⟨_, _, _, hsum, hdisj⟩ := scheduleLoop_inv hds hlt hde hms _ _ _ _ _ h
  have hmax : max (estMinutes t) 0 = estMinutes t := max_eq_left he
  rw [hmax] at hsum
  refine ⟨hsum, ?_⟩
  intro hlt2
  rcases hdisj with h1 | h2 | h3
  · linarith
  · exact Or.inl h2
  · exact Or.inr h3

/-- C5 (witness): instantiated on a concrete loop run that consumes the
whole 60-minute budget in two blocks. -/
theorem per_task_minutes_conservation_witness :
    validProfile pDefault ∧ 0 ≤ estMinutes tX ∧
    scheduleLoop (dsOf pDefault) (deOf pDefault) (msOf pDefault) tX.due
      tX.title (subjOf tX) 3 (estMinutes tX) 1290 = some ([bX1, bX2], 1940) ∧
    (sumMinutes [bX1, bX2] ≤ estMinutes tX ∧
      (sumMinutes [bX1, bX2] < estMinutes tX →
        tX.due ≤ 1940 ∨
        tX.due < 1940 +
          min ((msOf pDefault : Int) : ℚ) (estMinutes tX - sumMinutes [bX1, bX2]))) :=
  ⟨by with_unfolding_all decide, by with_unfolding_all decide,
    by with_unfolding_all decide,
    per_task_minutes_conservation pDefault (by with_unfolding_all decide)
      tX (by with_unfolding_all decide) 3 1290 [bX1, bX2] 1940
      (by with_unfolding_all decide)⟩

/-! ### Claim C6 -/

/-- C6 (counterexample): with `estimated_hours = 1/8` the scheduler emits a
block whose `minutes` field is `15/2 = 7.5` — not an integer (`remaining`
is a real number, `session = min(max_session, remaining)`, and the minutes
field stores `session` unrounded).  This refutes the claim that `minutes`
is always a positive integer. -/
theorem block_minutes_not_integer :
    generate_schedule 2 [tF] pDefault 540 = some [bF] ∧
    ¬ ∃ k : Int, bF.minutes = (k : ℚ) := by
  constructor
  · with_unfolding_all decide
  · rintro ⟨k, hk⟩
    have hden : bF.minutes.den = 1 := by
      rw [hk]
      exact Rat.den_intCast k
    have hden2 : bF.minutes.den = 2 := by with_unfolding_all decide
    omega

/-- C6 (amended): every emitted block satisfies `start < end`, has
strictly positive `minutes`, and `minutes = end - start` in minutes;
`minutes` is a positive rational but need not be an integer when
`estimated_hours * 60` is fractional. -/
theorem block_duration_consistency (p : Profile) (hp : validProfile p)
    (fuel : Nat) (tasks : List Task) (now : ℚ) (plan : List StudyBlock)
    (h : generate_schedule fuel tasks p now = some plan) :
    ∀ b ∈ plan,
      b.start < b.end_ ∧ 0 < b.minutes ∧ b.end_ = b.start + b.minutes := by
  obtain ⟨hds, hlt, hde, hms⟩ := hp
  obtain ⟨c2, hs⟩ := generate_schedule_some h
  obtain ⟨_, hmem, _⟩ := schedTasks_inv hds hlt hde hms _ _ _ _ _ hs
  intro b hb
  obtain ⟨t, _, hinv⟩ := hmem b hb
  obtain ⟨_, _, _, hEq, hpos, _⟩ := hinv
  refine ⟨?_, hpos, hEq⟩
  rw [hEq]
  linarith

/-- C6 (witness): the amended claim, instantiated on a concrete run. -/
theorem block_duration_consistency_witness :
    validProfile pDefault ∧
    generate_schedule 3 [tX] pDefault 1290 = some [bX1, bX2] ∧
    (bX1.start < bX1.end_ ∧ 0 < bX1.minutes ∧
      bX1.end_ = bX1.start + bX1.minutes) :=
  ⟨by with_unfolding_all decide, by with_unfolding_all decide,
    block_duration_consistency pDefault (by with_unfolding_all decide)
      3 [tX] 1290 [bX1, bX2] (by with_unfolding_all decide)
      bX1 (List.mem_cons_self _ _)⟩

/-! ### Claim C7 -/

/-- C7 (counterexample): `generate_schedule` performs no profile
validation: for the profile `daily_start_hour = 10, daily_end_hour = 5`
(invalid, since the end is not after the start) it raises nothing and
produces a non-empty plan — one snapped session per day.  This refutes
the claim that an `InvalidProfileError` is raised before any block is
computed and that no blocks are produced for such a profile. -/
theorem invalid_profile_still_schedules :
    ¬ validProfile pBad ∧
    generate_schedule 3 [tG] pBad 0 =
      some [⟨"G", "", 600, 650, 50⟩, ⟨"G", "", 2040, 2050, 10⟩] ∧
    ([⟨"G", "", 600, 650, 50⟩, ⟨"G", "", 2040, 2050, 10⟩] :
      List StudyBlock) ≠ [] := by
  refine ⟨?_, ?_, ?_⟩
  · with_unfolding_all decide
  · with_unfolding_all decide
  · with_unfolding_all decide

/-- C7 (amended): the scheduler does not validate the profile: no
`InvalidProfileError` exists, and a profile whose hours are within 0–23
but with `daily_end_hour ≤ daily_start_hour` is processed normally and
can yield blocks.  (Out-of-range hours are a separate matter not covered
here: with those, Python's `replace` raises `ValueError` inside the
loop — still not the claimed fail-fast validation error.) -/
theorem no_profile_validation :
    deOf pBad2 ≤ dsOf pBad2 ∧
    generate_schedule 3 [tH] pBad2 0 =
      some [⟨"H", "", 540, 570, 30⟩, ⟨"H", "", 1980, 2010, 30⟩] := by
  constructor
  · with_unfolding_all decide
  · with_unfolding_all decide

/-! ### Claim C8 -/

/-- C8: the upcoming-blocks query returns exactly the sublist of the plan
(in input order, without mutation — it is a pure filter) containing the
blocks with `now ≤ start ≤ now + hours_ahead` (both bounds inclusive);
with the default 24-hour horizon a block starting exactly at
`now + 24 h = now + 1440 min` is included and one at `now + 25 h` is
excluded. -/
theorem upcoming_blocks_exact_window (plans : List StudyBlock) (now : ℚ)
    (h : Int) (_hpos : 0 < h) :
    get_upcoming_blocks plans now h =
      plans.filter
        (fun b => decide (now ≤ b.start ∧ b.start ≤ now + 60 * (h : ℚ))) ∧
    (∀ b ∈ plans, b.start = now + 1440 →
      b ∈ get_upcoming_blocks plans now 24) ∧
    (∀ b : StudyBlock, b.start = now + 1500 →
      b ∉ get_upcoming_blocks plans now 24) := by
  refine ⟨get_upcoming_blocks_eq_filter plans now h, ?_, ?_⟩
  · intro b hb hstart
    rw [get_upcoming_blocks_eq_filter, List.mem_filter]
    refine ⟨hb, ?_⟩
    simp only [decide_eq_true_eq]
    constructor
    · rw [hstart]; linarith
    · rw [hstart]; push_cast; linarith
  · intro b hstart hmem
    rw [get_upcoming_blocks_eq_filter, List.mem_filter] at hmem
    obtain ⟨_, hpred⟩ := hmem
    simp only [decide_eq_true_eq] at hpred
    obtain ⟨_, hle⟩ := hpred
    rw [hstart] at hle
    push_cast at hle
    linarith

/-- C8 (witness): a two-block plan at `now = 540`; the block starting at
`now + 24 h` is kept, the one at `now + 25 h` is dropped. -/
theorem upcoming_blocks_exact_window_witness :
    (0 : Int) < 24 ∧
    get_upcoming_blocks [bU1, bU2] 540 24 =
      List.filter
        (fun b => decide ((540:ℚ) ≤ b.start ∧ b.start ≤ 540 + 60 * ((24 : Int) : ℚ)))
        [bU1, bU2] ∧
    bU1 ∈ get_upcoming_blocks [bU1, bU2] 540 24 ∧
    bU2 ∉ get_upcoming_blocks [bU1, bU2] 540 24 :=
  ⟨by decide,
    (upcoming_blocks_exact_window [bU1, bU2] 540 24 (by decide)).1,
    (upcoming_blocks_exact_window [bU1, bU2] 540 24 (by decide)).2.1
      bU1 (List.mem_cons_self _ _) (by with_unfolding_all decide),
    (upcoming_blocks_exact_window [bU1, bU2] 540 24 (by decide)).2.2
      bU2 (by with_unfolding_all decide)⟩

/-! ### Claim C9 -/

/-- C9: on any finite task list and valid profile the scheduler
terminates — some finite fuel (and any larger fuel) makes every inner
loop run to completion, because each iteration either exits or advances
the cursor by at least the session-plus-gap amount, eventually passing
`due`. -/
theorem schedule_terminates (p : Profile) (hp : validProfile p)
    (tasks : List Task) (now : ℚ) :
    ∃ (n : Nat) (plan : List StudyBlock), ∀ m, n ≤ m →
      generate_schedule m tasks p now = some plan := by
  obtain ⟨hds, hlt, hde, hms⟩ := hp
  have hms0 : (0 : Int) ≤ msOf p := by linarith
  obtain ⟨n, plan, c2, hn⟩ := schedTasks_total hds hms0 (sortTasks tasks) now
  refine ⟨n, plan, fun m hm => ?_⟩
  unfold generate_schedule
  rw [hn m hm]

/-- C9 (witness): termination instantiated at a concrete input. -/
theorem schedule_terminates_witness :
    validProfile pDefault ∧
    ∃ (n : Nat) (plan : List StudyBlock), ∀ m, n ≤ m →
      generate_schedule m [tX] pDefault 1290 = some plan :=
  ⟨by with_unfolding_all decide,
    schedule_terminates pDefault (by with_unfolding_all decide) [tX] 1290⟩

/-! ### Claim C10 -/

/-- C10: no block is ever scheduled in the past: the cursor starts at
`now` and only moves forward (both window snaps and the
emission advance are non-decreasing), so every emitted block has
`start ≥ now`. -/
theorem blocks_not_in_past (p : Profile) (hp : validProfile p)
    (fuel : Nat) (tasks : List Task) (now : ℚ) (plan : List StudyBlock)
    (h : generate_schedule fuel tasks p now = some plan) :
    ∀ b ∈ plan, now ≤ b.start := by
  obtain ⟨hds, hlt, hde, hms⟩ := hp
  obtain ⟨c2, hs⟩ := generate_schedule_some h
  obtain ⟨_, hmem, _⟩ := schedTasks_inv hds hlt hde hms _ _ _ _ _ hs
  intro b hb
  obtain ⟨t, _, hinv⟩ := hmem b hb
  exact hinv.1

/-- C10 (witness): instantiated on a concrete run. -/
theorem blocks_not_in_past_witness :
    validProfile pDefault ∧
    generate_schedule 3 [tX] pDefault 1290 = some [bX1, bX2] ∧
    (1290 : ℚ) ≤ bX1.start :=
  ⟨by with_unfolding_all decide, by with_unfolding_all decide,
    blocks_not_in_past pDefault (by with_unfolding_all decide)
      3 [tX] 1290 [bX1, bX2] (by with_unfolding_all decide)
      bX1 (List.mem_cons_self _ _)⟩

end StudyPlanner
